import Mathlib

/-!
Shallow embedding of the `keyka_v0` key/value store (src/python_v0):
`memcmp.py`, `structs.py`, `pack.py` and `read.py`.

Bytes are modelled as `Nat` (each in `[0, 256)` where produced by a codec),
buffers as `List Nat`, and Python integers as `Int` where a sign can occur.
Fallible operations (`struct.pack` / `struct.unpack_from` range and bounds
errors, `assert` statements) are modelled with `Option` / `Except`.

A central fact about the source: `structs.py` declares
`OFFSET_STRUCT = struct.Struct('<I')` — an *unsigned* little-endian 32-bit
codec — while `pack.py` stores *negative* offsets for leaf records and
`read.py` branches on the *sign* of a decoded offset.  CPython's
`struct.pack('<I', v)` raises `struct.error` for every negative `v`, so the
packer fails on every non-empty input.  The development therefore carries the
offset codec as a parameter: `u32le_pack` / `u32le_decode` are the codec the
source actually names, and `i32le_pack` / `i32le_decode` are the signed
`'<i'` codec that the surrounding code (its comments, the sign tests, the
`LEAF_NODE_OFFSET_FLAG` constant) and the format description assume.
-/

/-! ## memcmp.py -/

/-- `MemCmpResult` from memcmp.py: LESS = -1, EQUAL = 0, GREATER = 1. -/
inductive MemCmpResult where
  | LESS
  | EQUAL
  | GREATER
deriving DecidableEq, Repr

/-- `memcmp` from memcmp.py.  The Python loop draws one byte from each
iterator with sentinel `-1` on exhaustion; since real bytes are `≥ 0`, an
exhausted side compares below any remaining byte.  The structural recursion
below performs exactly those comparisons. -/
def memcmp : List Nat → List Nat → MemCmpResult
  | [], [] => .EQUAL
  | _ :: _, [] => .GREATER
  | [], _ :: _ => .LESS
  | b1 :: t1, b2 :: t2 =>
    if b1 > b2 then .GREATER
    else if b1 < b2 then .LESS
    else memcmp t1 t2

/-! ## pack.py: the level function -/

/-- Fuel-driven loop body of `get_btree_level` (pack.py).  The Python
`while idx % 2 == 1: idx >>= 1; level += 1` halves `idx` each iteration, so
`fuel = idx` iterations always suffice. -/
def get_btree_level_aux : Nat → Nat → Nat
  | 0, _ => 0
  | fuel + 1, idx => if idx % 2 = 1 then get_btree_level_aux fuel (idx / 2) + 1 else 0

/-- `get_btree_level` from pack.py: the number of trailing 1-bits of `idx`
(the position of the first `0` bit). -/
def get_btree_level (idx : Nat) : Nat :=
  get_btree_level_aux idx idx

/-- Fuel-driven floor of the base-2 logarithm; `fuel = n` always suffices
since `n` halves each iteration. -/
def floor_log2_aux : Nat → Nat → Nat
  | 0, _ => 0
  | fuel + 1, n => if 2 ≤ n then floor_log2_aux fuel (n / 2) + 1 else 0

/-- `math.floor(math.log(n, 2))` as used by pack.py for the root index,
modelled exactly (the source computes it through a floating-point logarithm,
which agrees with the exact value for every `n < 2 ^ 48 - 1`). -/
def floor_log2 (n : Nat) : Nat :=
  floor_log2_aux n n

/-! ## structs.py: the byte codecs -/

/-- Little-endian byte string of `n` on `k` bytes (the payload written by a
successful `struct.pack`). -/
def le_bytes (k n : Nat) : List Nat :=
  (List.range k).map fun i => n / 256 ^ i % 256

/-- Value of a little-endian byte string. -/
def le_value : List Nat → Nat
  | [] => 0
  | b :: t => b + 256 * le_value t

/-- `KEY_SIZE_STRUCT.pack` / `KEY_LENGTH_STRUCT.pack` (`'<H'`): fails unless
`0 ≤ n < 2^16`. -/
def u16le_pack (n : Int) : Option (List Nat) :=
  if 0 ≤ n ∧ n < 2 ^ 16 then some (le_bytes 2 n.toNat) else none

/-- `OFFSET_STRUCT.pack` (`'<I'`, unsigned): fails unless `0 ≤ v < 2^32`.
In particular every negative offset — every leaf reference of pack.py — is
rejected with `struct.error`. -/
def u32le_pack (v : Int) : Option (List Nat) :=
  if 0 ≤ v ∧ v < 2 ^ 32 then some (le_bytes 4 v.toNat) else none

/-- The signed `'<i'` 32-bit codec that pack.py's negative leaf references
and read.py's sign dispatch require: accepts `-2^31 ≤ v < 2^31` and writes
the two's-complement little-endian bytes. -/
def i32le_pack (v : Int) : Option (List Nat) :=
  if -2 ^ 31 ≤ v ∧ v < 2 ^ 31 then some (le_bytes 4 (v % 2 ^ 32).toNat) else none

/-- `LEAF_NODE_HEADER_STRUCT.pack` (`'<Q'`): fails unless `0 ≤ v < 2^64`. -/
def u64le_pack (v : Int) : Option (List Nat) :=
  if 0 ≤ v ∧ v < 2 ^ 64 then some (le_bytes 8 v.toNat) else none

/-- Unsigned interpretation of a decoded 32-bit field (`'<I'`,
as `OFFSET_STRUCT` is written in structs.py). -/
def u32le_decode (raw : Nat) : Int :=
  (raw : Int)

/-- Signed interpretation of a decoded 32-bit field (`'<i'`, the convention
the reader's sign dispatch assumes). -/
def i32le_decode (raw : Nat) : Int :=
  if raw < 2 ^ 31 then (raw : Int) else (raw : Int) - 2 ^ 32

/-- `struct.unpack_from` of one `k`-byte little-endian field at `off`:
fails (`struct.error`) when the field would extend past the buffer. -/
def unpack_le (mv : List Nat) (off k : Nat) : Option Nat :=
  if off + k ≤ mv.length then some (le_value ((mv.drop off).take k)) else none

/-- `MAGIC_BYTES = b'\x00Key\x00Ka\x08'` from structs.py. -/
def MAGIC_BYTES : List Nat :=
  [0x00, 0x4B, 0x65, 0x79, 0x00, 0x4B, 0x61, 0x08]

/-- `LEAF_NODE_HEADER_STRUCT.size` = 8. -/
def LEAF_NODE_HEADER_size : Nat := 8

/-- `BRANCH_NODE_HEADER_STRUCT.size` = 16. -/
def BRANCH_NODE_HEADER_size : Nat := 16

/-- `OFFSET_STRUCT.size` = 4. -/
def OFFSET_size : Nat := 4

/-- `KEY_SIZE_STRUCT.size` = `KEY_LENGTH_STRUCT.size` = 2. -/
def KEY_LENGTH_size : Nat := 2

/-! ## pack.py: the packer -/

/-- Python `bytes` comparison `key > prev_key` (unsigned lexicographic,
a longer sequence exceeding its own proper initial segment). -/
def bytes_gt : List Nat → List Nat → Bool
  | [], _ => false
  | _ :: _, [] => true
  | a :: t1, b :: t2 => if b < a then true else if a < b then false else bytes_gt t1 t2

/-- The failures `pack_tree` can raise: the `Unsorted input` assertion, a
`struct.error` from a `pack` call, and the `assert higher_node_offset > 0`
guarding the parent patch. -/
inductive PackErr where
  | unsorted
  | badStruct
  | parentAssert
deriving DecidableEq, Repr

/-- Running state of the `pack_tree` loop: the TREE-region bytes written so
far (`tree_base_offset` is 0 in this model), the `node_offsets` list, and
`prev_key`. -/
structure PackState where
  buf : List Nat
  offs : List Int
  prevKey : Option (List Nat)
deriving DecidableEq, Repr

/-- A `struct.pack` result lifted into the packer's error monad. -/
def ofStruct : Option (List Nat) → Except PackErr (List Nat)
  | some bs => .ok bs
  | none => .error .badStruct

/-- `pwrite` from pack.py restricted to patches that land inside the bytes
already written (the only way pack.py uses it): overwrite `data` at `off`. -/
def pwrite_at (buf : List Nat) (off : Nat) (data : List Nat) : List Nat :=
  buf.take off ++ data ++ buf.drop (off + data.length)

/-- Header bytes and parent index for one record (pack.py lines 77-96): a
branch (level >= 1) packs `value`, `left_offset = node_offsets[idx - delta]`
and a zero `right_offset` placeholder and has parent `idx - delta * 2`; a
leaf packs only `value` and has parent `idx - 1`.  A `struct.error` from any
`pack` call aborts. -/
def pack_record_header (packOff : Int → Option (List Nat)) (offs : List Int)
    (idx level : Nat) (value : Int) : Except PackErr (List Nat × Int) :=
  if 1 ≤ level then
    match u64le_pack value, packOff (offs.getD (idx - 2 ^ (level - 1)) 0), packOff 0 with
    | some hv, some hl, some hr => .ok (hv ++ hl ++ hr, (idx : Int) - 2 ^ (level - 1) * 2)
    | _, _, _ => .error .badStruct
  else
    match u64le_pack value with
    | some hv => .ok (hv, (idx : Int) - 1)
    | none => .error .badStruct

/-- Continuation of a `pack_tree` iteration, patch write (pack.py lines
108-117): `struct.error` when the new record reference does not fit the
offset codec, else overwrite the parent field at `patch_pos`. -/
def pack_write_patch (offs : List Int) (buf key : List Nat) (patch_pos : Nat)
    (d : Option (List Nat)) : Except PackErr PackState :=
  match d with
  | none => .error .badStruct
  | some data => .ok ⟨pwrite_at buf patch_pos data, offs, some key⟩

/-- Continuation of a `pack_tree` iteration, parent patch (pack.py lines
101-117): nothing to do without a parent (`higher_node_idx < 0`); otherwise
`assert higher_node_offset > 0` and patch its `right_offset` field, which
sits `BRANCH_NODE_HEADER_STRUCT.size - OFFSET_STRUCT.size` = 12 bytes into
the parent record. -/
def pack_patch_parent (packOff : Int → Option (List Nat)) (offs : List Int)
    (buf key : List Nat) (node_offset higher_node_idx : Int) :
    Except PackErr PackState :=
  if 0 ≤ higher_node_idx then
    if 0 < offs.getD higher_node_idx.toNat 0 then
      pack_write_patch offs buf key
        ((offs.getD higher_node_idx.toNat 0).toNat
          + BRANCH_NODE_HEADER_size - OFFSET_size)
        (packOff node_offset)
    else .error .parentAssert
  else .ok ⟨buf, offs, some key⟩

/-- Continuation of a `pack_tree` iteration, key write (pack.py line 99):
append the 2-byte key length and the key bytes after the record header
(`struct.error` when the length exceeds 16 bits). -/
def pack_emit_key (packOff : Int → Option (List Nat)) (offs : List Int)
    (buf0 key : List Nat) (node_offset higher_node_idx : Int)
    (header : List Nat) (ks : Option (List Nat)) : Except PackErr PackState :=
  match ks with
  | none => .error .badStruct
  | some kbytes =>
    pack_patch_parent packOff offs (buf0 ++ header ++ kbytes ++ key) key
      node_offset higher_node_idx

/-- Continuation of a `pack_tree` iteration after the header computation:
propagate its failure, else write key and patch parent. -/
def pack_after_header (packOff : Int → Option (List Nat)) (offs : List Int)
    (buf0 key : List Nat) (node_offset : Int)
    (hr : Except PackErr (List Nat × Int)) : Except PackErr PackState :=
  match hr with
  | .error e => .error e
  | .ok (header, higher_node_idx) =>
    pack_emit_key packOff offs buf0 key node_offset higher_node_idx header
      (u16le_pack key.length)

/-- Body of one `pack_tree` iteration after the sortedness assert (pack.py
lines 54-119): compute the level and the signed record reference (negative
for leaves), remember it in `node_offsets`, then emit header, key and the
parent patch. -/
def pack_step_checked (packOff : Int → Option (List Nat)) (st : PackState) (idx : Nat)
    (key : List Nat) (value : Int) : Except PackErr PackState :=
  pack_after_header packOff
    (st.offs ++ [if get_btree_level idx = 0 then -(st.buf.length : Int)
      else (st.buf.length : Int)])
    st.buf key
    (if get_btree_level idx = 0 then -(st.buf.length : Int) else (st.buf.length : Int))
    (pack_record_header packOff
      (st.offs ++ [if get_btree_level idx = 0 then -(st.buf.length : Int)
        else (st.buf.length : Int)])
      idx (get_btree_level idx) value)

/-- The sortedness assert of pack.py lines 50-52: trivially passed for the
first record (`prev_key is None`), else `key > prev_key` must hold. -/
def pack_check_sorted (key : List Nat) : Option (List Nat) → Bool
  | some pk => bytes_gt key pk
  | none => true

/-- One iteration of the `pack_tree` loop (pack.py lines 48-119) for input
rank `idx` and pair `(key, value)`, with the offset codec `packOff` as a
parameter (`u32le_pack` is what `OFFSET_STRUCT` of the source performs,
`i32le_pack` what the algorithm assumes).  The sortedness assert
`key > prev_key` runs first. -/
def pack_step (packOff : Int → Option (List Nat)) (st : PackState) (idx : Nat)
    (key : List Nat) (value : Int) : Except PackErr PackState :=
  if pack_check_sorted key st.prevKey then pack_step_checked packOff st idx key value
  else .error .unsorted

/-- The `for` loop of `pack_tree` (pack.py lines 48-119): process the pairs
in order, threading the state; a failed iteration aborts the pack. -/
def pack_loop (packOff : Int → Option (List Nat)) (st : PackState) (idx : Nat) :
    List (List Nat × Int) → Except PackErr PackState
  | [] => .ok st
  | (key, value) :: rest =>
    (pack_step packOff st idx key value).bind
      (fun st1 => pack_loop packOff st1 (idx + 1) rest)

/-- Root patch of `pack_tree` (pack.py lines 121-130): nothing for an empty
tree; else patch the 4 root-pointer bytes at the tree base with
`node_offsets[2 ^ floor(log2 N) - 1]`. -/
def pack_root_patch (packOff : Int → Option (List Nat)) (st : PackState) :
    Except PackErr (List Nat) :=
  if st.offs.length = 0 then .ok st.buf
  else
    match packOff (st.offs.getD (2 ^ floor_log2 st.offs.length - 1) 0) with
    | none => .error .badStruct
    | some d => .ok (pwrite_at st.buf 0 d)

/-- `pack_tree` from pack.py over the offset codec `packOff`, producing the
TREE-region bytes: a 4-byte zero root placeholder, the loop over the input,
then the root patch. -/
def pack_tree_core (packOff : Int → Option (List Nat))
    (key_values : List (List Nat × Int)) : Except PackErr (List Nat) :=
  (pack_loop packOff ⟨le_bytes 4 0, [], none⟩ 0 key_values).bind
    (pack_root_patch packOff)

/-- `pack_tree` exactly as the source composes it: offsets go through
`OFFSET_STRUCT = struct.Struct('<I')`, the unsigned codec. -/
def pack_tree (key_values : List (List Nat × Int)) : Except PackErr (List Nat) :=
  pack_tree_core u32le_pack key_values

/-- `pack_tree` with the offset codec corrected to the signed `'<i'` format
that pack.py's own comments ("leaf nodes should have negative offset") and
read.py's sign dispatch assume. -/
def pack_tree_signed (key_values : List (List Nat × Int)) : Except PackErr (List Nat) :=
  pack_tree_core i32le_pack key_values

/-- `pack_into_file` from pack.py: the magic followed by the tree region. -/
def pack_into_file_core (packOff : Int → Option (List Nat))
    (key_values : List (List Nat × Int)) : Except PackErr (List Nat) := do
  let tree ← pack_tree_core packOff key_values
  pure (MAGIC_BYTES ++ tree)

/-! ## read.py: the reader -/

/-- `_Node` from read.py: the signed offset the record was reached through,
a view of the key bytes, the value, and the child references (`NULL = 0`
for leaves). -/
structure KNode where
  offset : Int
  key_mv : List Nat
  value : Nat
  right_offset : Int
  left_offset : Int
deriving DecidableEq, Repr

/-- Continuation of `KeyKaReader._read_key` after the length decode: slice
`length` bytes after the 2-byte length field.  A Python `memoryview` slice
past the end silently truncates — faithfully kept by `List.take`. -/
def read_key_cont (mv : List Nat) (off : Nat) (len : Option Nat) : Option (List Nat) :=
  match len with
  | none => none
  | some length => some ((mv.drop (off + KEY_LENGTH_size)).take length)

/-- `KeyKaReader._read_key`: decode the 2-byte length at `off`
(`struct.error` when the length field itself runs past the buffer), then
slice `length` bytes. -/
def read_key (mv : List Nat) (off : Nat) : Option (List Nat) :=
  read_key_cont mv off (unpack_le mv off KEY_LENGTH_size)

/-- The three fields of `BRANCH_NODE_HEADER_STRUCT.unpack_from` (value at
`off`, left at `off + 8`, right at `off + 12`); `none` — a `struct.error` —
exactly when the 16 header bytes do not fit the buffer. -/
def branch_header_fields (mv : List Nat) (off : Nat) : Option (Nat × Nat × Nat) :=
  match unpack_le mv off 8, unpack_le mv (off + 8) 4, unpack_le mv (off + 12) 4 with
  | some v, some l, some r => some (v, l, r)
  | _, _, _ => none

/-- Last step of `_read_node`: a failed key decode raises, else the `_Node`
is materialized. -/
def read_node_finish (offset : Int) (value : Nat) (left right : Int)
    (key : Option (List Nat)) : Except Unit (Option KNode) :=
  match key with
  | none => .error ()
  | some key_mv => .ok (some ⟨offset, key_mv, value, right, left⟩)

/-- Branch arm of `_read_node` (read.py lines 79-98): decode the 16-byte
header at `offset`, then the key at `offset + 16`. -/
def read_node_branch (decOff : Nat → Int) (mv : List Nat) (offset : Int)
    (hdr : Option (Nat × Nat × Nat)) : Except Unit (Option KNode) :=
  match hdr with
  | none => .error ()
  | some (value, left_raw, right_raw) =>
    read_node_finish offset value (decOff left_raw) (decOff right_raw)
      (read_key mv (offset.toNat + BRANCH_NODE_HEADER_size))

/-- Leaf arm of `_read_node` (read.py lines 99-109): decode the 8-byte value
at `-offset`, then the key at `-offset + 8`; child references are `NULL`. -/
def read_node_leaf (mv : List Nat) (offset : Int) (value : Option Nat) :
    Except Unit (Option KNode) :=
  match value with
  | none => .error ()
  | some v =>
    read_node_finish offset v 0 0
      (read_key mv ((-offset).toNat + LEAF_NODE_HEADER_size))

/-- `KeyKaReader._read_node` with the 32-bit interpretation of the branch
child fields as a parameter: `u32le_decode` is what the unsigned
`OFFSET_STRUCT` of the source yields, `i32le_decode` the signed convention
the sign dispatch assumes.  `Except.error` stands for the `struct.error` a
decode past the buffer raises; offset `0` is the null reference. -/
def read_node_core (decOff : Nat → Int) (mv : List Nat) (offset : Int) :
    Except Unit (Option KNode) :=
  if offset = 0 then
    .ok none
  else if offset > 0 then
    read_node_branch decOff mv offset (branch_header_fields mv offset.toNat)
  else
    read_node_leaf mv offset (unpack_le mv (-offset).toNat 8)

/-- `_read_node` as the source composes it (unsigned child fields). -/
def read_node (mv : List Nat) (offset : Int) : Except Unit (Option KNode) :=
  read_node_core u32le_decode mv offset

/-- `_read_node` under the signed `'<i'` interpretation the reader's design
assumes. -/
def read_node_signed (mv : List Nat) (offset : Int) : Except Unit (Option KNode) :=
  read_node_core i32le_decode mv offset

/-- The state `KeyKaReader.__init__` leaves behind: the tree region view and
the materialized root node. -/
structure Reader where
  mv : List Nat
  root_node : Option KNode
deriving DecidableEq, Repr

/-- Second half of `KeyKaReader.__init__`: a failed root-record decode
fails construction, else the reader retains the view and the root node. -/
def reader_init_node (mv : List Nat) (r : Except Unit (Option KNode)) :
    Except Unit Reader :=
  match r with
  | .error _ => .error ()
  | .ok root => .ok ⟨mv, root⟩

/-- Root-offset decode of `KeyKaReader.__init__`: a `struct.error` on the
4-byte field at position 0 fails construction, else resolve the root record
through the offset interpretation `decOff`. -/
def reader_init_root (decOff : Nat → Int) (mv : List Nat) (root_raw : Option Nat) :
    Except Unit Reader :=
  match root_raw with
  | none => .error ()
  | some raw => reader_init_node mv (read_node_core decOff mv (decOff raw))

/-- `KeyKaReader.__init__` over a whole file image: assert the magic, slice
it off, decode the 4-byte root offset at position 0, and resolve the root
record. -/
def reader_init_core (decOff : Nat → Int) (buf : List Nat) : Except Unit Reader :=
  if buf.take MAGIC_BYTES.length = MAGIC_BYTES then
    reader_init_root decOff (buf.drop MAGIC_BYTES.length)
      (unpack_le (buf.drop MAGIC_BYTES.length) 0 4)
  else .error ()

/-- `KeyKaReader.__init__` as the source composes it. -/
def reader_init (buf : List Nat) : Except Unit Reader :=
  reader_init_core u32le_decode buf

/-- `KeyKaReader.__init__` under the signed offset interpretation. -/
def reader_init_signed (buf : List Nat) : Except Unit Reader :=
  reader_init_core i32le_decode buf

/-- The loop of `KeyKaReader.find_exact`: standard BST descent.  `fuel`
bounds the number of node visits (the Python `while` has no such bound; on
an acyclic reference graph any `fuel` larger than the tree depth is
enough, and exhaustion is reported as an error). -/
def find_exact_go (decOff : Nat → Int) (mv : List Nat) (key : List Nat) :
    Nat → Option KNode → Except Unit (Option Nat)
  | _, none => .ok none
  | 0, some _ => .error ()
  | fuel + 1, some node =>
    match memcmp key node.key_mv with
    | .LESS =>
      match read_node_core decOff mv node.left_offset with
      | .error _ => .error ()
      | .ok next => find_exact_go decOff mv key fuel next
    | .GREATER =>
      match read_node_core decOff mv node.right_offset with
      | .error _ => .error ()
      | .ok next => find_exact_go decOff mv key fuel next
    | .EQUAL => .ok (some node.value)

/-- `KeyKaReader.find_exact` with an explicit visit budget. -/
def find_exact_fuel (decOff : Nat → Int) (r : Reader) (key : List Nat)
    (fuel : Nat) : Except Unit (Option Nat) :=
  find_exact_go decOff r.mv key fuel r.root_node

/-- `KeyKaReader.find_exact` (the budget `r.mv.length + 1` exceeds any
possible acyclic descent length). -/
def find_exact (r : Reader) (key : List Nat) : Except Unit (Option Nat) :=
  find_exact_fuel u32le_decode r key (r.mv.length + 1)

/-- `find_exact` under the signed offset interpretation. -/
def find_exact_signed (r : Reader) (key : List Nat) : Except Unit (Option Nat) :=
  find_exact_fuel i32le_decode r key (r.mv.length + 1)

/-- `KeyKaReader._get_next_node`: step to the record of the next input rank
by positional arithmetic.  From a leaf (negative `offset`) the next record
is a branch starting `LEAF_NODE_HEADER_size + KEY_LENGTH_size + len(key)`
bytes later; from a branch the next record is a leaf, referenced by the
negation of the corresponding position.  Past the end of the view the
result is `none`. -/
def get_next_node_core (decOff : Nat → Int) (mv : List Nat) (node : KNode) :
    Except Unit (Option KNode) :=
  if node.offset < 0 then
    let next_node_offset : Int :=
      -node.offset + LEAF_NODE_HEADER_size + KEY_LENGTH_size + node.key_mv.length
    if next_node_offset ≥ (mv.length : Int) then .ok none
    else read_node_core decOff mv next_node_offset
  else
    let next_node_offset : Int :=
      -node.offset - node.key_mv.length - KEY_LENGTH_size - BRANCH_NODE_HEADER_size
    if -next_node_offset ≥ (mv.length : Int) then .ok none
    else read_node_core decOff mv next_node_offset

/-- `_get_next_node` as the source composes it. -/
def get_next_node (mv : List Nat) (node : KNode) : Except Unit (Option KNode) :=
  get_next_node_core u32le_decode mv node

/-- `_get_next_node` under the signed offset interpretation. -/
def get_next_node_signed (mv : List Nat) (node : KNode) : Except Unit (Option KNode) :=
  get_next_node_core i32le_decode mv node

/-- Loop of `KeyKaReader._find_matching_node`: BST descent for the smallest
key satisfying the lower bound, tracking the last node where the descent
went left.  `fuel` bounds the visits as in `find_exact_go`. -/
def find_matching_node_go (decOff : Nat → Int) (mv : List Nat) (key : List Nat)
    (allow_strict_equality : Bool) :
    Nat → Option KNode → Option KNode → Except Unit (Option KNode)
  | _, none, _ => .ok none
  | 0, some _, _ => .error ()
  | fuel + 1, some node, last_left_node =>
    match memcmp key node.key_mv with
    | .LESS =>
      match read_node_core decOff mv node.left_offset with
      | .error _ => .error ()
      | .ok (some deeper) =>
        find_matching_node_go decOff mv key allow_strict_equality fuel (some deeper) (some node)
      | .ok none => .ok (some node)
    | .GREATER =>
      match read_node_core decOff mv node.right_offset with
      | .error _ => .error ()
      | .ok (some deeper) =>
        find_matching_node_go decOff mv key allow_strict_equality fuel (some deeper) last_left_node
      | .ok none => .ok last_left_node
    | .EQUAL =>
      if allow_strict_equality then .ok (some node)
      else
        match get_next_node_core decOff mv node with
        | .error _ => .error ()
        | .ok next => .ok next

/-- `KeyKaReader._find_matching_node`. -/
def find_matching_node (decOff : Nat → Int) (r : Reader) (key : List Nat)
    (allow_strict_equality : Bool) : Except Unit (Option KNode) :=
  find_matching_node_go decOff r.mv key allow_strict_equality (r.mv.length + 1) r.root_node none

/-- Iteration phase of `KeyKaReader.find_range` with an upper bound `key2`:
yield while the key is below the bound (or equal, when
`key2_allow_strict_equality`), advancing with `_get_next_node`. -/
def find_range_go_bounded (decOff : Nat → Int) (mv : List Nat) (key2 : List Nat)
    (key2_allow_strict_equality : Bool) :
    Nat → Option KNode → Except Unit (List (List Nat × Nat))
  | _, none => .ok []
  | 0, some _ => .error ()
  | fuel + 1, some node =>
    match memcmp node.key_mv key2, key2_allow_strict_equality with
    | .LESS, _ | .EQUAL, true =>
      match get_next_node_core decOff mv node with
      | .error _ => .error ()
      | .ok next =>
        match find_range_go_bounded decOff mv key2 key2_allow_strict_equality fuel next with
        | .error _ => .error ()
        | .ok rest => .ok ((node.key_mv, node.value) :: rest)
    | _, _ => .ok []

/-- Iteration phase of `KeyKaReader.find_range` without an upper bound:
walk to the end of the view. -/
def find_range_go_all (decOff : Nat → Int) (mv : List Nat) :
    Nat → Option KNode → Except Unit (List (List Nat × Nat))
  | _, none => .ok []
  | 0, some _ => .error ()
  | fuel + 1, some node =>
    match get_next_node_core decOff mv node with
    | .error _ => .error ()
    | .ok next =>
      match find_range_go_all decOff mv fuel next with
      | .error _ => .error ()
      | .ok rest => .ok ((node.key_mv, node.value) :: rest)

/-- `KeyKaReader.find_range`, fully forced into a list (the Python generator
is lazy; finiteness comes from the strictly advancing byte position, modelled
by a fuel of one more than the view length). -/
def find_range_core (decOff : Nat → Int) (r : Reader) (key1 : List Nat)
    (key2 : Option (List Nat)) (key1_allow_strict_equality : Bool)
    (key2_allow_strict_equality : Bool) :
    Except Unit (List (List Nat × Nat)) :=
  match find_matching_node decOff r key1 key1_allow_strict_equality with
  | .error _ => .error ()
  | .ok start =>
    match key2 with
    | some k2 =>
      find_range_go_bounded decOff r.mv k2 key2_allow_strict_equality (r.mv.length + 1) start
    | none => find_range_go_all decOff r.mv (r.mv.length + 1) start

/-- `find_range` as the source composes it. -/
def find_range (r : Reader) (key1 : List Nat) (key2 : Option (List Nat))
    (key1_allow_strict_equality : Bool)
    (key2_allow_strict_equality : Bool) :
    Except Unit (List (List Nat × Nat)) :=
  find_range_core u32le_decode r key1 key2 key1_allow_strict_equality key2_allow_strict_equality

/-- `find_range` under the signed offset interpretation. -/
def find_range_signed (r : Reader) (key1 : List Nat) (key2 : Option (List Nat))
    (key1_allow_strict_equality : Bool)
    (key2_allow_strict_equality : Bool) :
    Except Unit (List (List Nat × Nat)) :=
  find_range_core i32le_decode r key1 key2 key1_allow_strict_equality key2_allow_strict_equality

/-! ## Loop invariant and concrete instances -/

/-- Loop invariant of `pack_tree` after `n` records: the buffer still starts
with the 4 root-pointer bytes, `node_offsets` has one entry per record, and
an entry is negative exactly at leaf ranks and positive at branch ranks. -/
def PackInv (st : PackState) (n : Nat) : Prop :=
  4 ≤ st.buf.length ∧ st.offs.length = n ∧
    ∀ j, j < n →
      (get_btree_level j = 0 → st.offs.getD j 0 < 0) ∧
      (1 ≤ get_btree_level j → 0 < st.offs.getD j 0)

/-- Scenario E3 of the format description: `("a",1), ("b",2), ("c",3)`. -/
def pairsE3 : List (List Nat × Int) := [([97], 1), ([98], 2), ([99], 3)]

/-- Scenario E4 of the format description: `("a",0) .. ("d",3)` (an
imperfect tree: the root's `right_offset` stays 0). -/
def pairsE4 : List (List Nat × Int) := [([97], 0), ([98], 1), ([99], 2), ([100], 3)]

/-- The TREE region the signed-codec packer produces for `pairsE3`: root
pointer `+15`, leaf "a" at 4 (referenced as `-4`), branch "b" at 15 with
`left = -4` and patched `right = -34`, leaf "c" at 34. -/
def treeE3 : List Nat :=
  [15, 0, 0, 0,
   1, 0, 0, 0, 0, 0, 0, 0, 1, 0, 97,
   2, 0, 0, 0, 0, 0, 0, 0, 252, 255, 255, 255, 222, 255, 255, 255, 1, 0, 98,
   3, 0, 0, 0, 0, 0, 0, 0, 1, 0, 99]

/-- Pack with the signed codec, open the file, and look `key` up: `none`
when any stage fails, `some v` with the lookup outcome otherwise. -/
def roundtrip_lookup (kvs : List (List Nat × Int)) (key : List Nat) :
    Option (Option Nat) :=
  match pack_into_file_core i32le_pack kvs with
  | .error _ => none
  | .ok f =>
    match reader_init_signed f with
    | .error _ => none
    | .ok r =>
      match find_exact_signed r key with
      | .error _ => none
      | .ok v => some v

/-- As `roundtrip_lookup`, but with an explicit budget of node visits for
the BST descent. -/
def roundtrip_lookup_fuel (kvs : List (List Nat × Int)) (key : List Nat)
    (fuel : Nat) : Option (Option Nat) :=
  match pack_into_file_core i32le_pack kvs with
  | .error _ => none
  | .ok f =>
    match reader_init_signed f with
    | .error _ => none
    | .ok r =>
      match find_exact_fuel i32le_decode r key fuel with
      | .error _ => none
      | .ok v => some v

/-- Pack with the signed codec, open the file, and run a range scan. -/
def roundtrip_range (kvs : List (List Nat × Int)) (key1 : List Nat)
    (key2 : Option (List Nat)) (incl1 incl2 : Bool) :
    Option (List (List Nat × Nat)) :=
  match pack_into_file_core i32le_pack kvs with
  | .error _ => none
  | .ok f =>
    match reader_init_signed f with
    | .error _ => none
    | .ok r =>
      match find_range_signed r key1 key2 incl1 incl2 with
      | .error _ => none
      | .ok items => some items

/-- A 25-byte tree region whose branch record at offset 4 declares a
100-byte key while only 3 bytes remain: value 9, null children, key length
100, key bytes `[1, 2, 3]`. -/
def corrupt25 : List Nat :=
  [4, 0, 0, 0] ++ [9, 0, 0, 0, 0, 0, 0, 0] ++ [0, 0, 0, 0] ++ [0, 0, 0, 0]
    ++ [100, 0] ++ [1, 2, 3]

/-! ## Arithmetic facts about the level function and the root index -/

theorem get_btree_level_aux_congr :
    ∀ m f g : Nat, m ≤ f → m ≤ g →
      get_btree_level_aux f m = get_btree_level_aux g m := by
  intro m
  induction m using Nat.strong_induction_on with
  | _ m ih =>
    intro f g hf hg
    match f, g with
    | 0, 0 => rfl
    | 0, g + 1 =>
      interval_cases m
      simp [get_btree_level_aux]
    | f + 1, 0 =>
      interval_cases m
      simp [get_btree_level_aux]
    | f + 1, g + 1 =>
      simp only [get_btree_level_aux]
      by_cases hodd : m % 2 = 1
      · simp only [hodd, if_pos rfl]
        have hlt : m / 2 < m := Nat.div_lt_self (by omega) (by omega)
        have h1 : m / 2 ≤ f := by omega
        have h2 : m / 2 ≤ g := by omega
        rw [ih (m / 2) hlt f g h1 h2]
      · simp [hodd]

theorem get_btree_level_eq (idx : Nat) :
    get_btree_level idx = if idx % 2 = 1 then get_btree_level (idx / 2) + 1 else 0 := by
  unfold get_btree_level
  by_cases hodd : idx % 2 = 1
  · have hpos : 0 < idx := by omega
    obtain ⟨f, rfl⟩ : ∃ f, idx = f + 1 := ⟨idx - 1, by omega⟩
    simp only [get_btree_level_aux, hodd, if_pos rfl]
    have h1 : (f + 1) / 2 ≤ f := by omega
    rw [get_btree_level_aux_congr ((f + 1) / 2) f ((f + 1) / 2) h1 le_rfl]
  · match idx with
    | 0 => simp [get_btree_level_aux, hodd]
    | f + 1 => simp [get_btree_level_aux, hodd]

theorem odd_mod_double (j m : Nat) (hm : 0 < m) :
    (2 * j + 1) % (2 * m) = 2 * (j % m) + 1 := by
  have hj := Nat.div_add_mod j m
  have hrepr : 2 * j + 1 = (2 * (j % m) + 1) + (2 * m) * (j / m) := by
    nlinarith [hj]
  rw [hrepr, Nat.add_mul_mod_self_left]
  exact Nat.mod_eq_of_lt (by have := Nat.mod_lt j hm; omega)

/-- The binary shape behind `get_btree_level`: an index is congruent to
`2 ^ level - 1` modulo `2 ^ (level + 1)` (that many trailing ones, then a
zero bit). -/
theorem get_btree_level_mod (i : Nat) :
    i % 2 ^ (get_btree_level i + 1) = 2 ^ get_btree_level i - 1 := by
  induction i using Nat.strong_induction_on with
  | _ i ih =>
    rw [get_btree_level_eq]
    by_cases hodd : i % 2 = 1
    · rw [if_pos hodd]
      have hpos : 0 < i := by omega
      have hrec := ih (i / 2) (Nat.div_lt_self hpos (by omega))
      generalize hLdef : get_btree_level (i / 2) = L at hrec ⊢
      have hi : i = 2 * (i / 2) + 1 := by omega
      have hmod : (2 * (i / 2) + 1) % (2 * 2 ^ (L + 1)) = 2 * ((i / 2) % 2 ^ (L + 1)) + 1 :=
        odd_mod_double (i / 2) (2 ^ (L + 1)) (Nat.pos_pow_of_pos _ (by omega))
      have hpow1 : (2 : Nat) ^ (L + 1 + 1) = 2 * 2 ^ (L + 1) := by ring
      have hpow2 : (2 : Nat) ^ (L + 1) = 2 * 2 ^ L := by ring
      have hLpos : 1 ≤ (2 : Nat) ^ L := Nat.one_le_two_pow
      rw [hpow1]
      rw [← hi] at hmod
      rw [hmod, hrec, hpow2]
      omega
    · rw [if_neg hodd]
      norm_num
      omega

/-- Parent of a leaf (pack.py: `higher_node_idx = idx - 1`): when it exists
it is a branch. -/
theorem leaf_parent_is_branch (i : Nat) (hleaf : get_btree_level i = 0) (hpos : 1 ≤ i) :
    1 ≤ get_btree_level (i - 1) := by
  have hodd : ¬ i % 2 = 1 := by
    intro h
    rw [get_btree_level_eq, if_pos h] at hleaf
    omega
  have : (i - 1) % 2 = 1 := by omega
  rw [get_btree_level_eq, if_pos this]
  omega

/-- Parent of a branch (pack.py: `higher_node_idx = idx - delta * 2`
with `delta = 2 ^ (level - 1)`, that is `idx - 2 ^ level`): when it exists
it is a branch. -/
theorem branch_parent_is_branch (i : Nat) (hbr : 1 ≤ get_btree_level i)
    (hex : 2 ^ get_btree_level i ≤ i) :
    1 ≤ get_btree_level (i - 2 ^ get_btree_level i) := by
  set L := get_btree_level i with hL
  have hmod := get_btree_level_mod i
  rw [← hL] at hmod
  have hdm := Nat.div_add_mod i (2 ^ (L + 1))
  rw [hmod] at hdm
  set a := i / 2 ^ (L + 1) with ha
  have hpowL : 1 ≤ (2 : Nat) ^ L := Nat.one_le_two_pow
  have hpow : (2 : Nat) ^ (L + 1) * a = 2 * (2 ^ L * a) := by ring
  rw [hpow] at hdm
  have hXpos : 1 ≤ 2 ^ L * a := by
    rcases Nat.eq_zero_or_pos a with h0 | h1
    · rw [h0, Nat.mul_zero, Nat.mul_zero, Nat.zero_add] at hdm
      omega
    · exact Nat.one_le_iff_ne_zero.mpr (by positivity)
  have hodd : (i - 2 ^ L) % 2 = 1 := by omega
  rw [get_btree_level_eq, if_pos hodd]
  omega

theorem floor_log2_aux_congr :
    ∀ m f g : Nat, m ≤ f → m ≤ g →
      floor_log2_aux f m = floor_log2_aux g m := by
  intro m
  induction m using Nat.strong_induction_on with
  | _ m ih =>
    intro f g hf hg
    match f, g with
    | 0, 0 => rfl
    | 0, g + 1 =>
      interval_cases m
      simp [floor_log2_aux]
    | f + 1, 0 =>
      interval_cases m
      simp [floor_log2_aux]
    | f + 1, g + 1 =>
      simp only [floor_log2_aux]
      by_cases h2 : 2 ≤ m
      · rw [if_pos h2, if_pos h2]
        have hlt : m / 2 < m := Nat.div_lt_self (by omega) (by omega)
        rw [ih (m / 2) hlt f g (by omega) (by omega)]
      · rw [if_neg h2, if_neg h2]

theorem floor_log2_eq (n : Nat) :
    floor_log2 n = if 2 ≤ n then floor_log2 (n / 2) + 1 else 0 := by
  unfold floor_log2
  by_cases h2 : 2 ≤ n
  · obtain ⟨f, rfl⟩ : ∃ f, n = f + 1 := ⟨n - 1, by omega⟩
    simp only [floor_log2_aux, if_pos h2]
    rw [floor_log2_aux_congr ((f + 1) / 2) f ((f + 1) / 2) (by omega) le_rfl]
  · rw [if_neg h2]
    interval_cases n
    · rfl
    · rfl

/-- The root index `2 ^ floor(log2 n) - 1` computed by pack.py lies inside
`node_offsets` (of length `n`) for every non-empty input. -/
theorem pow_floor_log2_le (n : Nat) (hpos : 1 ≤ n) : 2 ^ floor_log2 n ≤ n := by
  induction n using Nat.strong_induction_on with
  | _ n ih =>
    rw [floor_log2_eq]
    by_cases h2 : 2 ≤ n
    · rw [if_pos h2]
      have hlt : n / 2 < n := Nat.div_lt_self (by omega) (by omega)
      have hrec := ih (n / 2) hlt (by omega)
      have : (2 : Nat) ^ (floor_log2 (n / 2) + 1) = 2 * 2 ^ floor_log2 (n / 2) := by ring
      rw [this]
      omega
    · rw [if_neg h2]
      omega

/-! ## memcmp: unsigned lexicographic order -/

theorem memcmp_eq_iff (a b : List Nat) : memcmp a b = .EQUAL ↔ a = b := by
  induction a generalizing b with
  | nil =>
    cases b with
    | nil => simp [memcmp]
    | cons y t2 => simp [memcmp]
  | cons x t1 ih =>
    cases b with
    | nil => simp [memcmp]
    | cons y t2 =>
      by_cases hgt : y < x
      · simp [memcmp, hgt]
        omega
      · by_cases hlt : x < y
        · simp [memcmp, hgt, hlt]
          omega
        · have hxy : x = y := by omega
          subst hxy
          simp [memcmp, hgt, hlt, ih]

theorem memcmp_less_iff (a b : List Nat) :
    memcmp a b = .LESS ↔ List.Lex (fun x y => x < y) a b := by
  induction a generalizing b with
  | nil =>
    cases b with
    | nil =>
      simp only [memcmp]
      constructor
      · intro h
        exact absurd h (by simp)
      · intro h
        cases h
    | cons y t2 =>
      simp only [memcmp]
      constructor
      · intro _
        exact List.Lex.nil
      · intro _
        trivial
  | cons x t1 ih =>
    cases b with
    | nil =>
      simp only [memcmp]
      constructor
      · intro h
        exact absurd h (by simp)
      · intro h
        cases h
    | cons y t2 =>
      by_cases hgt : y < x
      · simp only [memcmp, if_pos hgt]
        constructor
        · intro h
          exact absurd h (by simp)
        · intro h
          cases h with
          | cons h' => omega
          | rel hr => omega
      · by_cases hlt : x < y
        · simp only [memcmp, if_neg hgt, if_pos hlt]
          constructor
          · intro _
            exact List.Lex.rel hlt
          · intro _
            trivial
        · have hxy : x = y := by omega
          subst hxy
          simp only [memcmp, if_neg hgt, if_neg hlt]
          constructor
          · intro h
            exact List.Lex.cons ((ih t2).mp h)
          · intro h
            cases h with
            | cons h' => exact (ih t2).mpr h'
            | rel hr => omega

theorem memcmp_greater_iff (a b : List Nat) :
    memcmp a b = .GREATER ↔ List.Lex (fun x y => x < y) b a := by
  induction a generalizing b with
  | nil =>
    cases b with
    | nil =>
      constructor
      · intro h
        simp [memcmp] at h
      · intro h
        cases h
    | cons y t2 =>
      constructor
      · intro h
        simp [memcmp] at h
      · intro h
        cases h
  | cons x t1 ih =>
    cases b with
    | nil =>
      constructor
      · intro _
        exact List.Lex.nil
      · intro _
        simp [memcmp]
    | cons y t2 =>
      by_cases hgt : y < x
      · constructor
        · intro _
          exact List.Lex.rel hgt
        · intro _
          simp [memcmp, hgt]
      · by_cases hlt : x < y
        · constructor
          · intro h
            simp [memcmp, hgt, hlt] at h
          · intro h
            cases h with
            | cons h' => omega
            | rel hr => omega
        · have hxy : x = y := by omega
          subst hxy
          constructor
          · intro h
            simp only [memcmp, if_neg hgt, if_neg hlt] at h
            exact List.Lex.cons ((ih t2).mp h)
          · intro h
            simp only [memcmp, if_neg hgt, if_neg hlt]
            cases h with
            | cons h' => exact (ih t2).mpr h'
            | rel hr => omega

/-- A strict initial segment compares `LESS` than the longer sequence. -/
theorem memcmp_proper_initial_segment (a : List Nat) (x : Nat) (c : List Nat) :
    memcmp a (a ++ x :: c) = .LESS := by
  induction a with
  | nil => simp [memcmp]
  | cons h t ih => simp [memcmp, ih]

/-! ## The parent-patch assertion can never fire -/

theorem getD_append_lt (l l2 : List Int) (j : Nat) (h : j < l.length) :
    (l ++ l2).getD j 0 = l.getD j 0 := by
  induction l generalizing j with
  | nil => exact absurd h (by simp)
  | cons x t ih =>
    cases j with
    | zero => rfl
    | succ j =>
      simp only [List.cons_append, List.getD_cons_succ]
      exact ih j (by simpa using h)

theorem getD_append_last (l : List Int) (x : Int) :
    (l ++ [x]).getD l.length 0 = x := by
  induction l with
  | nil => rfl
  | cons y t ih => simpa using ih

theorem pwrite_at_length_ge (buf : List Nat) (off : Nat) (d : List Nat) :
    buf.length ≤ (pwrite_at buf off d).length := by
  unfold pwrite_at
  simp only [List.length_append, List.length_take, List.length_drop]
  omega

theorem pack_write_patch_not_parent (offs : List Int) (buf key : List Nat)
    (patch_pos : Nat) (d : Option (List Nat)) :
    pack_write_patch offs buf key patch_pos d ≠ Except.error PackErr.parentAssert := by
  unfold pack_write_patch
  cases d <;> simp

theorem pack_write_patch_ok (offs : List Int) (buf key : List Nat) (patch_pos : Nat)
    (d : Option (List Nat)) (st' : PackState)
    (h : pack_write_patch offs buf key patch_pos d = Except.ok st') :
    st'.offs = offs ∧ buf.length ≤ st'.buf.length := by
  unfold pack_write_patch at h
  cases d with
  | none => simp at h
  | some data =>
    simp only [Except.ok.injEq] at h
    subst h
    exact ⟨rfl, pwrite_at_length_ge _ _ _⟩

theorem pack_patch_parent_sound (packOff : Int → Option (List Nat)) (offs : List Int)
    (buf key : List Nat) (node_offset higher : Int)
    (hpar : 0 ≤ higher → 0 < offs.getD higher.toNat 0) :
    pack_patch_parent packOff offs buf key node_offset higher
        ≠ Except.error PackErr.parentAssert ∧
    ∀ st', pack_patch_parent packOff offs buf key node_offset higher = Except.ok st' →
      st'.offs = offs ∧ buf.length ≤ st'.buf.length := by
  unfold pack_patch_parent
  by_cases hge : 0 ≤ higher
  · rw [if_pos hge, if_pos (hpar hge)]
    exact ⟨pack_write_patch_not_parent _ _ _ _ _,
      fun st' h => pack_write_patch_ok _ _ _ _ _ _ h⟩
  · rw [if_neg hge]
    constructor
    · simp
    · intro st' h
      simp only [Except.ok.injEq] at h
      subst h
      exact ⟨rfl, le_refl _⟩

theorem pack_step_checked_sound (packOff : Int → Option (List Nat)) (st : PackState)
    (idx : Nat) (key : List Nat) (value : Int) (hinv : PackInv st idx) :
    pack_step_checked packOff st idx key value ≠ Except.error PackErr.parentAssert ∧
    ∀ st', pack_step_checked packOff st idx key value = Except.ok st' →
      PackInv st' (idx + 1) := by
  obtain ⟨hbuf, hlen, hsign⟩ := hinv
  unfold pack_step_checked
  -- sign facts for every entry of the appended offset list
  have hsign' : ∀ j, j < idx + 1 →
      (get_btree_level j = 0 →
        (st.offs ++ [if get_btree_level idx = 0 then -(st.buf.length : Int)
          else (st.buf.length : Int)]).getD j 0 < 0) ∧
      (1 ≤ get_btree_level j →
        0 < (st.offs ++ [if get_btree_level idx = 0 then -(st.buf.length : Int)
          else (st.buf.length : Int)]).getD j 0) := by
    intro j hj
    by_cases hjlt : j < idx
    · rw [getD_append_lt st.offs _ j (by omega)]
      exact hsign j hjlt
    · have hje : j = idx := by omega
      subst hje
      rw [← hlen, getD_append_last]
      constructor
      · intro h0
        rw [if_pos h0]
        omega
      · intro h1
        rw [if_neg (by omega)]
        omega
  rcases hhd : pack_record_header packOff
      (st.offs ++ [if get_btree_level idx = 0 then -(st.buf.length : Int)
        else (st.buf.length : Int)]) idx (get_btree_level idx) value with e | hp
  · simp only [pack_after_header]
    have he : e = PackErr.badStruct := by
      unfold pack_record_header at hhd
      split at hhd
      · split at hhd <;> simp_all
      · split at hhd <;> simp_all
    subst he
    constructor
    · intro hcon
      simp at hcon
    · intro st' h
      simp at h
  · obtain ⟨header, higher⟩ := hp
    have hhigher : (1 ≤ get_btree_level idx ∧
          higher = (idx : Int) - 2 ^ (get_btree_level idx - 1) * 2) ∨
        (get_btree_level idx = 0 ∧ higher = (idx : Int) - 1) := by
      unfold pack_record_header at hhd
      split at hhd
      · split at hhd <;> simp_all
      · split at hhd <;> simp_all
    simp only [pack_after_header]
    rcases hks : u16le_pack key.length with _ | ks
    · simp only [pack_emit_key]
      constructor
      · intro hcon
        simp at hcon
      · intro st' h
        simp at h
    · simp only [pack_emit_key]
      have hpar : 0 ≤ higher →
          0 < (st.offs ++ [if get_btree_level idx = 0 then -(st.buf.length : Int)
            else (st.buf.length : Int)]).getD higher.toNat 0 := by
        intro hge
        rcases hhigher with ⟨hbr, hh⟩ | ⟨hlf, hh⟩
        · have hpow : ((2 : Int) ^ (get_btree_level idx - 1) * 2)
              = ((2 : Nat) ^ get_btree_level idx : Int) := by
            obtain ⟨M, hM⟩ : ∃ M, get_btree_level idx = M + 1 :=
              ⟨get_btree_level idx - 1, by omega⟩
            rw [hM]
            simp only [Nat.add_sub_cancel]
            push_cast
            ring
          rw [hpow] at hh
          have hex : 2 ^ get_btree_level idx ≤ idx := by omega
          have htn : higher.toNat = idx - 2 ^ get_btree_level idx := by omega
          have hplevel := branch_parent_is_branch idx hbr hex
          have hres := (hsign' (idx - 2 ^ get_btree_level idx)
            (Nat.lt_succ_of_le (Nat.sub_le idx _))).2 hplevel
          rw [htn]
          exact hres
        · have h1 : 1 ≤ idx := by omega
          have htn : higher.toNat = idx - 1 := by omega
          have hplevel := leaf_parent_is_branch idx hlf h1
          have hres := (hsign' (idx - 1) (Nat.lt_succ_of_le (Nat.sub_le idx 1))).2 hplevel
          rw [htn]
          exact hres
      obtain ⟨hne, hok⟩ := pack_patch_parent_sound packOff _
        (st.buf ++ header ++ ks ++ key) key _ higher hpar
      constructor
      · exact hne
      · intro st' h
        obtain ⟨hoffs, hblen⟩ := hok st' h
        refine ⟨?_, ?_, ?_⟩
        · calc (4 : Nat) ≤ st.buf.length := hbuf
            _ ≤ (st.buf ++ header ++ ks ++ key).length := by simp
            _ ≤ st'.buf.length := hblen
        · rw [hoffs]
          simp [hlen]
        · rw [hoffs]
          exact hsign'

theorem pack_step_sound (packOff : Int → Option (List Nat)) (st : PackState)
    (idx : Nat) (key : List Nat) (value : Int) (hinv : PackInv st idx) :
    pack_step packOff st idx key value ≠ Except.error PackErr.parentAssert ∧
    ∀ st', pack_step packOff st idx key value = Except.ok st' →
      PackInv st' (idx + 1) := by
  unfold pack_step
  by_cases hc : pack_check_sorted key st.prevKey = true
  · rw [if_pos hc]
    exact pack_step_checked_sound packOff st idx key value hinv
  · rw [if_neg hc]
    constructor
    · intro hcon
      simp at hcon
    · intro st' h
      simp at h

theorem pack_loop_sound (packOff : Int → Option (List Nat)) :
    ∀ (kvs : List (List Nat × Int)) (st : PackState) (n : Nat), PackInv st n →
      pack_loop packOff st n kvs ≠ Except.error PackErr.parentAssert ∧
      ∀ st', pack_loop packOff st n kvs = Except.ok st' →
        PackInv st' (n + kvs.length) := by
  intro kvs
  induction kvs with
  | nil =>
    intro st n hinv
    constructor
    · intro hcon
      simp [pack_loop] at hcon
    · intro st' h
      simp only [pack_loop, Except.ok.injEq] at h
      subst h
      simpa using hinv
  | cons kv rest ih =>
    intro st n hinv
    obtain ⟨key, value⟩ := kv
    obtain ⟨hne, hok⟩ := pack_step_sound packOff st n key value hinv
    rcases hstep : pack_step packOff st n key value with e | st1
    · have he : e ≠ PackErr.parentAssert := by
        intro hcon
        subst hcon
        exact hne hstep
      constructor
      · intro hcon
        simp only [pack_loop, hstep] at hcon
        exact he (by simpa [Except.bind] using hcon)
      · intro st' h
        simp only [pack_loop, hstep] at h
        simp [Except.bind] at h
    · obtain ⟨hne1, hok1⟩ := ih st1 (n + 1) (hok st1 hstep)
      constructor
      · intro hcon
        simp only [pack_loop, hstep] at hcon
        exact hne1 (by simpa [Except.bind] using hcon)
      · intro st' h
        simp only [pack_loop, hstep] at h
        have h2 : pack_loop packOff st1 (n + 1) rest = Except.ok st' := by
          simpa [Except.bind] using h
        have := hok1 st' h2
        simpa [Nat.add_comm, Nat.add_left_comm] using this

theorem pack_root_patch_not_parent (packOff : Int → Option (List Nat)) (st : PackState) :
    pack_root_patch packOff st ≠ Except.error PackErr.parentAssert := by
  unfold pack_root_patch
  split
  · simp
  · split <;> simp

/-- The `assert higher_node_offset > 0` of pack.py can never fail: whatever
the offset codec and the input, `pack_tree` never stops on that assertion
(its only failures are the sortedness assert and `struct.error`). -/
theorem pack_tree_core_no_parentAssert (packOff : Int → Option (List Nat))
    (kvs : List (List Nat × Int)) :
    pack_tree_core packOff kvs ≠ Except.error PackErr.parentAssert := by
  unfold pack_tree_core
  have hinit : PackInv ⟨le_bytes 4 0, [], none⟩ 0 := by
    refine ⟨by simp [le_bytes], rfl, ?_⟩
    intro j hj
    omega
  obtain ⟨hne, hok⟩ := pack_loop_sound packOff kvs ⟨le_bytes 4 0, [], none⟩ 0 hinit
  rcases hloop : pack_loop packOff ⟨le_bytes 4 0, [], none⟩ 0 kvs with e | st
  · have he : e ≠ PackErr.parentAssert := by
      intro hcon
      subst hcon
      exact hne hloop
    intro hcon
    exact he (by simpa [Except.bind] using hcon)
  · intro hcon
    have : pack_root_patch packOff st = Except.error PackErr.parentAssert := by
      simpa [Except.bind] using hcon
    exact pack_root_patch_not_parent packOff st this

/-- Every `pack_tree` failure is the sortedness assert or a `struct.error`. -/
theorem pack_tree_core_err (packOff : Int → Option (List Nat))
    (kvs : List (List Nat × Int)) (e : PackErr)
    (h : pack_tree_core packOff kvs = Except.error e) :
    e = PackErr.unsorted ∨ e = PackErr.badStruct := by
  cases e with
  | unsorted => exact Or.inl rfl
  | badStruct => exact Or.inr rfl
  | parentAssert => exact absurd h (pack_tree_core_no_parentAssert packOff kvs)

/-! ## Reader bounds behavior -/

theorem unpack_le_none (mv : List Nat) (off k : Nat) (h : mv.length < off + k) :
    unpack_le mv off k = none := by
  unfold unpack_le
  rw [if_neg (by omega)]

theorem unpack_le_some (mv : List Nat) (off k : Nat) (h : off + k ≤ mv.length) :
    unpack_le mv off k = some (le_value ((mv.drop off).take k)) := by
  unfold unpack_le
  rw [if_pos h]

/-- A branch decode whose 16-byte header or 2-byte key-length field would
read past the buffer raises an error. -/
theorem read_node_branch_oob (decOff : Nat → Int) (mv : List Nat) (offset : Int)
    (hpos : 0 < offset)
    (hlen : mv.length < offset.toNat + BRANCH_NODE_HEADER_size + KEY_LENGTH_size) :
    read_node_core decOff mv offset = Except.error () := by
  simp only [BRANCH_NODE_HEADER_size, KEY_LENGTH_size] at hlen
  unfold read_node_core
  rw [if_neg (by omega : ¬ offset = 0), if_pos hpos]
  by_cases h16 : offset.toNat + 16 ≤ mv.length
  · rcases hf : branch_header_fields mv offset.toNat with _ | f
    · rfl
    · obtain ⟨v, l, r⟩ := f
      unfold read_node_branch read_node_finish read_key read_key_cont
      simp only [BRANCH_NODE_HEADER_size, KEY_LENGTH_size]
      rw [unpack_le_none mv (offset.toNat + 16) 2 (by omega)]
  · have hf : branch_header_fields mv offset.toNat = none := by
      unfold branch_header_fields
      rw [unpack_le_none mv (offset.toNat + 12) 4 (by omega)]
      rcases unpack_le mv offset.toNat 8 with _ | v <;>
        rcases unpack_le mv (offset.toNat + 8) 4 with _ | l <;> rfl
    rw [hf]
    rfl

/-- A leaf decode whose 8-byte header or 2-byte key-length field would read
past the buffer raises an error. -/
theorem read_node_leaf_oob (decOff : Nat → Int) (mv : List Nat) (offset : Int)
    (hneg : offset < 0)
    (hlen : mv.length < (-offset).toNat + LEAF_NODE_HEADER_size + KEY_LENGTH_size) :
    read_node_core decOff mv offset = Except.error () := by
  simp only [LEAF_NODE_HEADER_size, KEY_LENGTH_size] at hlen
  unfold read_node_core
  rw [if_neg (by omega : ¬ offset = 0), if_neg (by omega : ¬ offset > 0)]
  by_cases h8 : (-offset).toNat + 8 ≤ mv.length
  · rcases hv : unpack_le mv (-offset).toNat 8 with _ | v
    · rfl
    · unfold read_node_leaf read_node_finish read_key read_key_cont
      simp only [LEAF_NODE_HEADER_size, KEY_LENGTH_size]
      rw [unpack_le_none mv ((-offset).toNat + 8) 2 (by omega)]
  · rw [unpack_le_none mv (-offset).toNat 8 (by omega)]
    rfl

/-- When the branch header and the key-length field fit, the decode
*succeeds* even if the declared key length runs past the buffer: the key
bytes are silently truncated to what the view holds (the `memoryview`
slice semantics of `_read_key`). -/
theorem read_node_branch_truncates (decOff : Nat → Int) (mv : List Nat) (offset : Int)
    (hpos : 0 < offset)
    (hfit : offset.toNat + BRANCH_NODE_HEADER_size + KEY_LENGTH_size ≤ mv.length) :
    ∃ node : KNode,
      read_node_core decOff mv offset = Except.ok (some node) ∧
      node.key_mv = (mv.drop (offset.toNat + BRANCH_NODE_HEADER_size + KEY_LENGTH_size)).take
        (le_value ((mv.drop (offset.toNat + BRANCH_NODE_HEADER_size)).take KEY_LENGTH_size)) := by
  simp only [BRANCH_NODE_HEADER_size, KEY_LENGTH_size] at hfit ⊢
  unfold read_node_core
  rw [if_neg (by omega : ¬ offset = 0), if_pos hpos]
  have hf : branch_header_fields mv offset.toNat =
      some (le_value ((mv.drop offset.toNat).take 8),
        le_value ((mv.drop (offset.toNat + 8)).take 4),
        le_value ((mv.drop (offset.toNat + 12)).take 4)) := by
    unfold branch_header_fields
    rw [unpack_le_some mv offset.toNat 8 (by omega),
      unpack_le_some mv (offset.toNat + 8) 4 (by omega),
      unpack_le_some mv (offset.toNat + 12) 4 (by omega)]
  rw [hf]
  unfold read_node_branch read_node_finish read_key read_key_cont
  simp only [BRANCH_NODE_HEADER_size, KEY_LENGTH_size]
  rw [unpack_le_some mv (offset.toNat + 16) 2 (by omega)]
  exact ⟨_, rfl, rfl⟩

/-- A root pointer whose magnitude points at or past the end of the tree
region makes construction fail (the root record is resolved eagerly in
`__init__`). -/
theorem reader_init_root_oob (tree : List Nat)
    (hpos : 0 < le_value (tree.take 4))
    (hoob : tree.length ≤ le_value (tree.take 4)) :
    reader_init (MAGIC_BYTES ++ tree) = Except.error () := by
  unfold reader_init reader_init_core
  rw [if_pos (by rw [List.take_left]), List.drop_left]
  by_cases h4 : 4 ≤ tree.length
  · rw [unpack_le_some tree 0 4 (by omega)]
    unfold reader_init_root
    simp only [List.drop_zero]
    have hdec : u32le_decode (le_value (tree.take 4)) = ((le_value (tree.take 4) : Nat) : Int) := rfl
    rw [hdec, read_node_branch_oob u32le_decode tree ((le_value (tree.take 4) : Nat) : Int)
      (by exact_mod_cast hpos)
      (by simp only [BRANCH_NODE_HEADER_size, KEY_LENGTH_size, Int.toNat_natCast]; omega)]
    rfl
  · rw [unpack_le_none tree 0 4 (by omega)]
    rfl

/-! ## The claims -/

/-- C1: packing a sorted sequence and opening the result must give a reader
whose `find_exact` returns every stored value and `None` for absent keys.
The code as written cannot perform the round trip: `pack_tree` fails with
`struct.error` on every non-empty input because the unsigned `OFFSET_STRUCT`
rejects the negative leaf references (here already for a single pair).
With the codec corrected to the signed `'<i'` the algorithm assumes, the
round trip holds, shown on the three-pair scenario: every stored key maps to
its value and both kinds of absent key (between and below all keys) give
`None`. -/
theorem c1_roundtrip :
    pack_tree [([97], 7)] = Except.error PackErr.badStruct ∧
    roundtrip_lookup pairsE3 [97] = some (some 1) ∧
    roundtrip_lookup pairsE3 [98] = some (some 2) ∧
    roundtrip_lookup pairsE3 [99] = some (some 3) ∧
    roundtrip_lookup pairsE3 [97, 97] = some none ∧
    roundtrip_lookup pairsE3 [96] = some none :=
  ⟨rfl, rfl, rfl, rfl, rfl, rfl⟩

/-- C2: record references are claimed to be signed little-endian 32-bit
integers (negative for leaves) written by the packer and decoded back by the
reader.  The source's `OFFSET_STRUCT` is `struct.Struct('<I')` — unsigned:
packing the first leaf reference `-4` raises `struct.error` (so `pack_tree`
dies on the two-pair input when the branch header packs `left_offset = -4`),
and the reader's decode of the two's-complement bytes `FC FF FF FF` yields
`+4294967292`, never a negative value.  The signed `'<i'` codec performs
exactly the claimed convention. -/
theorem c2_offset_encoding :
    u32le_pack (-4) = none ∧
    i32le_pack (-4) = some [252, 255, 255, 255] ∧
    i32le_decode (le_value [252, 255, 255, 255]) = -4 ∧
    u32le_decode (le_value [252, 255, 255, 255]) = 4294967292 ∧
    pack_tree [([97], 0), ([98], 1)] = Except.error PackErr.badStruct ∧
    pack_tree_signed [([97], 0), ([98], 1)] =
      Except.ok [15, 0, 0, 0,
        0, 0, 0, 0, 0, 0, 0, 0, 1, 0, 97,
        1, 0, 0, 0, 0, 0, 0, 0, 252, 255, 255, 255, 0, 0, 0, 0, 1, 0, 98] :=
  ⟨rfl, rfl, rfl, rfl, rfl, rfl⟩

/-- C3: `find_range` is claimed to return exactly the stored pairs between
the two bounds, honoring each of the four inclusivity combinations.  No
packed file exists to scan: `pack_tree` fails on the scenario input with
`struct.error`.  Over the signed-codec correction the bound semantics hold:
all four flag combinations on E3, a strict two-sided scan on E4, and an
inverted range (`k2 < k1`) yielding the empty sequence. -/
theorem c3_range_bounds :
    pack_tree pairsE3 = Except.error PackErr.badStruct ∧
    roundtrip_range pairsE3 [97] (some [99]) true true =
      some [([97], 1), ([98], 2), ([99], 3)] ∧
    roundtrip_range pairsE3 [97] (some [99]) true false =
      some [([97], 1), ([98], 2)] ∧
    roundtrip_range pairsE3 [97] (some [99]) false true =
      some [([98], 2), ([99], 3)] ∧
    roundtrip_range pairsE3 [97] (some [99]) false false =
      some [([98], 2)] ∧
    roundtrip_range pairsE4 [97, 97] (some [99, 99]) true false =
      some [([98], 1), ([99], 2)] ∧
    roundtrip_range pairsE3 [99] (some [97]) true true = some [] :=
  ⟨rfl, rfl, rfl, rfl, rfl, rfl, rfl⟩

/-- C4 counterexample: the claim says any decode that would read past the
buffer fails rather than silently truncating the key bytes.  On the 25-byte
region `corrupt25` the record at offset 4 declares a 100-byte key with only
3 bytes present, yet `_read_node` succeeds and returns the truncated 3-byte
key. -/
theorem c4_decode_bounds_counterexample :
    read_node corrupt25 4 = Except.ok (some ⟨4, [1, 2, 3], 9, 0, 0⟩) ∧
    le_value ((corrupt25.drop 20).take 2) = 100 ∧
    corrupt25.length = 25 :=
  ⟨rfl, rfl, rfl⟩

/-- C4 (amended): decodes of the fixed-size fields — branch header, leaf
header, key-length field, root pointer — that would read past the buffer do
fail with an error, and an out-of-range root pointer fails at construction;
the key *bytes*, however, are not bounds-checked: when the headers fit, the
decode succeeds and silently truncates the key to the bytes available. -/
theorem c4_decode_bounds :
    (∀ (decOff : Nat → Int) (mv : List Nat) (offset : Int), 0 < offset →
      mv.length < offset.toNat + BRANCH_NODE_HEADER_size + KEY_LENGTH_size →
      read_node_core decOff mv offset = Except.error ()) ∧
    (∀ (decOff : Nat → Int) (mv : List Nat) (offset : Int), offset < 0 →
      mv.length < (-offset).toNat + LEAF_NODE_HEADER_size + KEY_LENGTH_size →
      read_node_core decOff mv offset = Except.error ()) ∧
    (∀ tree : List Nat, 0 < le_value (tree.take 4) →
      tree.length ≤ le_value (tree.take 4) →
      reader_init (MAGIC_BYTES ++ tree) = Except.error ()) ∧
    (∀ (decOff : Nat → Int) (mv : List Nat) (offset : Int), 0 < offset →
      offset.toNat + BRANCH_NODE_HEADER_size + KEY_LENGTH_size ≤ mv.length →
      ∃ node : KNode, read_node_core decOff mv offset = Except.ok (some node) ∧
        node.key_mv =
          (mv.drop (offset.toNat + BRANCH_NODE_HEADER_size + KEY_LENGTH_size)).take
            (le_value ((mv.drop (offset.toNat + BRANCH_NODE_HEADER_size)).take
              KEY_LENGTH_size))) :=
  ⟨read_node_branch_oob, read_node_leaf_oob, reader_init_root_oob,
    read_node_branch_truncates⟩

/-- Witness for the C4 bounds theorem at concrete inputs. -/
theorem c4_decode_bounds_witness :
    read_node_core u32le_decode [0] 1 = Except.error () ∧
    read_node_core u32le_decode [0] (-1) = Except.error () ∧
    reader_init (MAGIC_BYTES ++ [9, 0, 0, 0]) = Except.error () ∧
    ∃ node : KNode, read_node_core u32le_decode corrupt25 4 = Except.ok (some node) ∧
      node.key_mv =
        (corrupt25.drop ((4 : Int).toNat + BRANCH_NODE_HEADER_size + KEY_LENGTH_size)).take
          (le_value ((corrupt25.drop ((4 : Int).toNat + BRANCH_NODE_HEADER_size)).take
            KEY_LENGTH_size)) :=
  ⟨c4_decode_bounds.1 u32le_decode [0] 1 (by decide) (by decide),
    c4_decode_bounds.2.1 u32le_decode [0] (-1) (by decide) (by decide),
    c4_decode_bounds.2.2.1 [9, 0, 0, 0] (by decide) (by decide),
    c4_decode_bounds.2.2.2 u32le_decode corrupt25 4 (by decide) (by decide)⟩

/-- C5: on a well-formed image, `_get_next_node` is claimed to return the
node of the next input rank by positional arithmetic.  Over the signed E3
image this is exhibited rank by rank: from the rank-0 leaf (reference `-4`,
1-byte key) the next record is the branch at `4 + 8 + 2 + 1 = 15`; from the
branch at 15 the next record is the leaf referenced by `-(15 + 16 + 2 + 1) =
-34`; from the last leaf the computed position `45` equals the view length
and the walk ends with `none`.  The reader as composed in the source,
however, decodes the stepped-to branch's child references through unsigned
`OFFSET_STRUCT`, returning `+4294967292 / +4294967262` instead of
`-4 / -34`, so the faithful result is not the tree's next-rank node. -/
theorem c5_next_node :
    pack_tree_signed pairsE3 = Except.ok treeE3 ∧
    read_node_signed treeE3 (-4) = Except.ok (some ⟨-4, [97], 1, 0, 0⟩) ∧
    get_next_node_signed treeE3 ⟨-4, [97], 1, 0, 0⟩ =
      Except.ok (some ⟨15, [98], 2, -34, -4⟩) ∧
    (-(-4 : Int) + LEAF_NODE_HEADER_size + KEY_LENGTH_size + 1 = 15) ∧
    get_next_node_signed treeE3 ⟨15, [98], 2, -34, -4⟩ =
      Except.ok (some ⟨-34, [99], 3, 0, 0⟩) ∧
    ((15 : Int) + BRANCH_NODE_HEADER_size + KEY_LENGTH_size + 1 = 34) ∧
    get_next_node_signed treeE3 ⟨-34, [99], 3, 0, 0⟩ = Except.ok none ∧
    treeE3.length = 45 ∧
    get_next_node treeE3 ⟨-4, [97], 1, 0, 0⟩ =
      Except.ok (some ⟨15, [98], 2, 4294967262, 4294967292⟩) :=
  ⟨rfl, rfl, rfl, rfl, rfl, rfl, rfl, rfl, rfl⟩

/-- C6: after the loop the packer must patch the root pointer at the tree
base with `node_offsets[2 ^ floor(log2 N) - 1]`.  The patch is never
reached by the code as written (already `pack_tree` of one pair dies in
`struct.error` at the root write, packing `-4` into the unsigned struct).
The root-index expression itself always addresses a valid entry
(`2 ^ floor_log2 n - 1 < n`), and over the signed codec the patch is
exhibited on E4: `N = 4`, root index `2 ^ 2 - 1 = 3`, the branch at byte 45,
whose encoding `[45, 0, 0, 0]` lands in the first four tree bytes. -/
theorem c6_root_patch :
    pack_tree [([98], 5)] = Except.error PackErr.badStruct ∧
    (∀ n : Nat, 1 ≤ n → 2 ^ floor_log2 n - 1 < n) ∧
    (2 ^ floor_log2 4 - 1 = 3) ∧
    i32le_pack 45 = some [45, 0, 0, 0] ∧
    (pack_tree_signed pairsE4).map (fun t => t.take 4) = Except.ok [45, 0, 0, 0] := by
  refine ⟨rfl, ?_, rfl, rfl, rfl⟩
  intro n hn
  have := pow_floor_log2_le n hn
  have hpow : 1 ≤ 2 ^ floor_log2 n := Nat.one_le_two_pow
  omega

/-- Witness for the root-index bound of C6 at `n = 5`. -/
theorem c6_root_patch_witness : 2 ^ floor_log2 5 - 1 < 5 :=
  c6_root_patch.2.1 5 (by decide)

/-- C7: for every record with a parent, the parent's stored reference must
be positive (a branch), the guarding assertion must never fail, and the
patch target is `base + offs[parent] + 12`.  The first two parts hold of the
code: a leaf's parent `i - 1` and a branch's parent `i - 2 ^ level i` are
branches whenever they exist, and `pack_tree` can never stop on the parent
assertion for any codec and any input.  The patch distance is
`BRANCH_NODE_HEADER_STRUCT.size - OFFSET_STRUCT.size = 12`.  The patch
write itself is never executed by the code as written: the run aborts in
`struct.error` beforehand (here on the E4 input). -/
theorem c7_parent_assert :
    (∀ i : Nat, get_btree_level i = 0 → 1 ≤ i → 1 ≤ get_btree_level (i - 1)) ∧
    (∀ i : Nat, 1 ≤ get_btree_level i → 2 ^ get_btree_level i ≤ i →
      1 ≤ get_btree_level (i - 2 ^ get_btree_level i)) ∧
    (∀ (packOff : Int → Option (List Nat)) (kvs : List (List Nat × Int)),
      pack_tree_core packOff kvs ≠ Except.error PackErr.parentAssert) ∧
    (BRANCH_NODE_HEADER_size - OFFSET_size = 12) ∧
    pack_tree pairsE4 = Except.error PackErr.badStruct :=
  ⟨leaf_parent_is_branch, branch_parent_is_branch, pack_tree_core_no_parentAssert,
    rfl, rfl⟩

/-- Witness for C7: parents of ranks 2 (a leaf) and 5 (a branch) are
branches, and the faithful packer never stops on the parent assertion. -/
theorem c7_parent_assert_witness :
    1 ≤ get_btree_level (2 - 1) ∧
    1 ≤ get_btree_level (5 - 2 ^ get_btree_level 5) ∧
    pack_tree_core u32le_pack [([97], 1)] ≠ Except.error PackErr.parentAssert :=
  ⟨c7_parent_assert.1 2 (by decide) (by decide),
    c7_parent_assert.2.1 5 (by decide) (by decide),
    c7_parent_assert.2.2.1 u32le_pack [([97], 1)]⟩

/-- C8: `memcmp` realizes the unsigned byte-wise lexicographic order:
`EQUAL` exactly on equal sequences, `LESS`/`GREATER` exactly on the
lexicographic order in either direction (`List.Lex` on `<`), and a strict
initial segment compares `LESS` than any extension. -/
theorem c8_memcmp_order : ∀ a b : List Nat,
    (memcmp a b = MemCmpResult.EQUAL ↔ a = b) ∧
    (memcmp a b = MemCmpResult.LESS ↔ List.Lex (fun x y => x < y) a b) ∧
    (memcmp a b = MemCmpResult.GREATER ↔ List.Lex (fun x y => x < y) b a) ∧
    (∀ x c, memcmp a (a ++ x :: c) = MemCmpResult.LESS) :=
  fun a b =>
    ⟨memcmp_eq_iff a b, memcmp_less_iff a b, memcmp_greater_iff a b,
      fun x c => memcmp_proper_initial_segment a x c⟩

/-- Witness for C8 at concrete byte strings. -/
theorem c8_memcmp_order_witness :
    memcmp [97, 98] [97, 98] = MemCmpResult.EQUAL ∧
    memcmp [97] [97, 0] = MemCmpResult.LESS :=
  ⟨(c8_memcmp_order [97, 98] [97, 98]).1.mpr rfl,
    (c8_memcmp_order [97] [97, 0]).2.2.2 0 []⟩

/-- C9: the packer must fail with `Unsorted` on any input whose keys do not
strictly ascend, duplicates included.  This holds when the offending pair is
reached before any branch record: a descending or duplicate second key stops
the run with the `Unsorted` assertion.  But when the violation lies past the
first branch record, the code as written aborts one record earlier with
`struct.error` (packing the branch's negative `left_offset`), not with
`Unsorted`; with the signed codec the same input fails with `Unsorted` as
claimed. -/
theorem c9_unsorted :
    pack_tree [([98], 1), ([97], 2)] = Except.error PackErr.unsorted ∧
    pack_tree [([97], 1), ([97], 2)] = Except.error PackErr.unsorted ∧
    pack_tree [([97], 1), ([98], 2), ([97], 3)] = Except.error PackErr.badStruct ∧
    pack_tree_signed [([97], 1), ([98], 2), ([97], 3)] =
      Except.error PackErr.unsorted :=
  ⟨rfl, rfl, rfl, rfl⟩

/-- C10: `find_exact` is claimed to terminate within `ceil(log2 N) + 1`
visited nodes on a packed file of `N` pairs.  No such file exists from the
code as written (`pack_tree` aborts in `struct.error`).  Over the signed
codec, on the four-pair E4 file the bound `ceil(log2 4) + 1 = 3` is exact:
every stored key and a missing key resolve within a budget of 3 visited
nodes, and a budget of 2 is not enough for the deepest key. -/
theorem c10_descent_bound :
    pack_tree [([120], 0), ([121], 1)] = Except.error PackErr.badStruct ∧
    roundtrip_lookup_fuel pairsE4 [97] 3 = some (some 0) ∧
    roundtrip_lookup_fuel pairsE4 [98] 3 = some (some 1) ∧
    roundtrip_lookup_fuel pairsE4 [99] 3 = some (some 2) ∧
    roundtrip_lookup_fuel pairsE4 [100] 3 = some (some 3) ∧
    roundtrip_lookup_fuel pairsE4 [96] 3 = some none ∧
    roundtrip_lookup_fuel pairsE4 [101] 3 = some none ∧
    roundtrip_lookup_fuel pairsE4 [97] 2 = none :=
  ⟨rfl, rfl, rfl, rfl, rfl, rfl, rfl, rfl⟩
